import Mathlib

/-!
Verification development for the network-test measurement pipeline.

Embedding conventions:
* Go `int64` and `int` values (latencies in milliseconds, running totals,
  `time.Duration` nanosecond counts, timestamps) are embedded as `Int`;
  counters that Go only ever increments are embedded as `Nat`.  Two's
  complement overflow is not modelled: every quantity here is a millisecond
  latency, a count of samples, or a nanosecond timestamp, all far below 2^63.
* Go integer division (which truncates toward zero) is embedded as
  `Int.tdiv`.
* Wall-clock time is passed explicitly: functions that call `time.Now()` in
  Go take the current time as an extra `now : Int` argument (nanoseconds).
  Go compares elapsed time via `Duration.Seconds()` (a monotone conversion
  to float64); the comparison is embedded directly on nanosecond counts.
* Fallible Go functions returning `(T, error)` are embedded as `Option`.
-/

namespace NetTest

/-- The `Window` accumulator, src/main.go lines 53-58.  `Min`, `Max`, `Total`
are Go `int64`, `Count` is a Go `int` that is only ever incremented. -/
structure Window where
  Min : Int
  Max : Int
  Total : Int
  Count : Nat
  deriving DecidableEq

/-- The zero value `Window{}` that Go gives a freshly created window. -/
def Window.empty : Window := ⟨0, 0, 0, 0⟩

/-- `Window.Update`, src/main.go lines 60-71: `Min` is replaced when it is
still the zero sentinel or the new duration is strictly smaller; `Max` when
the new duration is strictly larger; `Total` and `Count` grow always. -/
def Window.update (w : Window) (duration : Int) : Window :=
  { Min := if w.Min = 0 ∨ duration < w.Min then duration else w.Min,
    Max := if duration > w.Max then duration else w.Max,
    Total := w.Total + duration,
    Count := w.Count + 1 }

/-- `Window.Reset`, src/main.go lines 73-78: zero every field. -/
def Window.reset (_ : Window) : Window := ⟨0, 0, 0, 0⟩

/-- `Window.Average`, src/main.go lines 80-86: defined zero on an empty
window, otherwise Go's truncating integer division of `Total` by `Count`. -/
def Window.average (w : Window) : Int :=
  if w.Count = 0 then 0 else Int.tdiv w.Total (w.Count : Int)

/-- `Window.String`, src/main.go lines 88-90. -/
def Window.stringRepr (w : Window) : String :=
  "Min: " ++ toString w.Min ++ "ms, Max: " ++ toString w.Max ++
    "ms, Avg: " ++ toString w.average ++ "ms"

/-- The `Histogram` accumulator, src/main.go lines 92-96: ordered bucket
upper bounds, one running count per bound, and a running total. -/
structure Histogram where
  thresholds : List Int
  buckets : List Nat
  total : Nat
  deriving DecidableEq

/-- `NewHistogram`, src/main.go lines 98-103: the given thresholds paired
with as many zero counts (`make([]int, len(thresholds))`). -/
def NewHistogram (thresholds : List Int) : Histogram :=
  { thresholds := thresholds,
    buckets := thresholds.map (fun _ => 0),
    total := 0 }

/-- The bucket loop of `Histogram.Update`, src/main.go lines 106-111:
walk thresholds and counts in step and increment the first count whose
threshold is `>=` the duration, then stop.  In the program the two lists
always have equal length (`NewHistogram` builds them so). -/
def updateBuckets : List Int → List Nat → Int → List Nat
  | t :: ts, b :: bs, d => if d ≤ t then (b + 1) :: bs else b :: updateBuckets ts bs d
  | _, bs, _ => bs

/-- `Histogram.Update`, src/main.go lines 105-114: route the duration into
at most one bucket and increment `total` unconditionally. -/
def Histogram.update (h : Histogram) (d : Int) : Histogram :=
  { h with buckets := updateBuckets h.thresholds h.buckets d,
           total := h.total + 1 }

/-- Folding `Histogram.Update` over a sample sequence. -/
def Histogram.applyAll (h : Histogram) (l : List Int) : Histogram :=
  l.foldl Histogram.update h

/-- The `Stats` engine state, src/main.go lines 116-123, with the two
`time.Duration`/`time.Time` fields as nanosecond counts. -/
structure Stats where
  windowSize : Int
  windowStart : Int
  window : Window
  lastWindow : Window
  totals : Window
  histogram : Histogram
  deriving DecidableEq

/-- `Stats.Update`, src/main.go lines 125-135: route the sample to the
current window, the lifetime totals and the histogram, then, when the time
elapsed since `windowStart` exceeds `windowSize`, copy the current window
into `lastWindow`, reset it and restamp `windowStart`.  Go performs the
comparison on `Duration.Seconds()`, a monotone conversion of the nanosecond
counts compared here; `now` stands for both `time.Now()` calls. -/
def Stats.update (s : Stats) (now : Int) (duration : Int) : Stats :=
  let s1 : Stats :=
    { s with window := s.window.update duration,
             totals := s.totals.update duration,
             histogram := s.histogram.update duration }
  if now - s1.windowStart > s1.windowSize then
    { s1 with lastWindow := s1.window,
              window := s1.window.reset,
              windowStart := now }
  else s1

/-- `Stats.String`, src/main.go lines 137-139: a pure formatting of the
last-completed window and the lifetime totals. -/
def Stats.stringRepr (s : Stats) : String :=
  "Window - " ++ s.lastWindow.stringRepr ++ "\nTotals - " ++ s.totals.stringRepr

/-- The default histogram thresholds, src/main.go line 240. -/
def defaultThresholds : List Int := [1, 2, 5, 10, 20, 50, 100, 200, 500, 1000]

/-- The engine state built in `test`, src/main.go lines 234-241:
`windowSize` is `window * time.Second` nanoseconds, all windows empty, the
histogram fresh over the default thresholds. -/
def initStats (windowSeconds : Int) (startTime : Int) : Stats :=
  { windowSize := windowSeconds * 1000000000,
    windowStart := startTime,
    window := Window.empty,
    lastWindow := Window.empty,
    totals := Window.empty,
    histogram := NewHistogram defaultThresholds }

/-- `Duration.Milliseconds` from the Go standard library as used at
src/main.go line 209: truncating division of the nanosecond count by 10^6. -/
def durMilliseconds (d : Int) : Int := Int.tdiv d 1000000

/-- An operation on a `Window`: one `Update` call or one `Reset` call. -/
inductive WOp where
  | upd (d : Int)
  | reset
  deriving DecidableEq

/-- Apply one window operation. -/
def wstep (w : Window) : WOp → Window
  | WOp.upd d => w.update d
  | WOp.reset => w.reset

/-- Apply a sequence of window operations. -/
def applyOps (w : Window) (ops : List WOp) : Window := ops.foldl wstep w

/-- The update values applied since the last reset in an operation list. -/
def sinceReset (ops : List WOp) : List Int :=
  ops.foldl (fun acc op => match op with
    | WOp.upd d => acc ++ [d]
    | WOp.reset => []) []

/-- The message kinds the consumer loop can receive, src/main.go lines
198-216: a key press, the producer's channel pair (`initParams`), one
latency sample (`time.Duration`, a nanosecond count), or a producer error.
The payloads that do not reach the statistics state are dropped here. -/
inductive Msg where
  | key (k : String)
  | initMsg
  | sample (ns : Int)
  | errMsg
  deriving DecidableEq

/-- Whether a message carries a latency sample. -/
def Msg.isSample : Msg → Bool
  | Msg.sample _ => true
  | _ => false

/-- One step of `model.Update`, src/main.go lines 198-216, restricted to its
effect on the statistics state: only a `time.Duration` message touches it,
via `m.stats.Update(msg.Milliseconds())` (line 209); key presses, the init
message and errors only decide whether the program quits.  The event is
paired with the wall-clock instant at which it is handled. -/
def modelStep (st : Stats) (ev : Int × Msg) : Stats :=
  match ev with
  | (now, Msg.sample ns) => st.update now (durMilliseconds ns)
  | _ => st

/-- The consumer loop: fold the handler over a sequence of timed events. -/
def modelRun (st : Stats) (evs : List (Int × Msg)) : Stats :=
  evs.foldl modelStep st

/-- One token of the anchored pattern `PING_LINE`, src/pkg/ping/ping.go
line 25: a greedy `\d+` run, a `.` wildcard (any character other than a
newline, as in RE2's default mode), or a literal character sequence. -/
inductive RTok where
  | digits
  | anyc
  | lit (s : List Char)

/-- Backtracking over the lengths a greedy `\d+` may consume: try `m`
characters first, then shorter prefixes down to one character.  Together
with `matchToks` this reproduces the leftmost-first semantics the Go regexp
package gives this alternation-free pattern. -/
def tryTake (cs : List Char) (k : List Char → Option α) : Nat → Option α
  | 0 => none
  | m + 1 =>
    match k (cs.drop (m + 1)) with
    | some v => some v
    | none => tryTake cs k m

/-- Match a token sequence against the front of `cs` and pass the remaining
suffix to the continuation `k`, backtracking through the candidate lengths
of each `\d+`. -/
def matchToks : List RTok → List Char → (List Char → Option α) → Option α
  | [], cs, k => k cs
  | RTok.lit s :: ts, cs, k =>
    if s.isPrefixOf cs then matchToks ts (cs.drop s.length) k else none
  | RTok.anyc :: ts, cs, k =>
    match cs with
    | [] => none
    | c :: rest => if c = '\n' then none else matchToks ts rest k
  | RTok.digits :: ts, cs, k =>
    tryTake cs (fun rest => matchToks ts rest k) ((cs.takeWhile Char.isDigit).length)

/-- The tokens of `PING_LINE` before the capturing group. -/
def preToks : List RTok :=
  [RTok.digits, RTok.lit (" bytes from ".toList), RTok.digits, RTok.anyc,
    RTok.digits, RTok.anyc, RTok.digits, RTok.anyc, RTok.digits,
    RTok.lit (": icmp_seq=".toList), RTok.digits, RTok.lit (" ttl=".toList),
    RTok.digits, RTok.lit (" time=".toList)]

/-- The tokens of the capturing group `(\d+.\d+)` of `PING_LINE`. -/
def groupToks : List RTok := [RTok.digits, RTok.anyc, RTok.digits]

/-- The tokens of `PING_LINE` after the capturing group. -/
def postToks : List RTok := [RTok.lit (" ms".toList)]

/-- `PING_LINE.FindStringSubmatch` restricted by the `^...$` anchors: match
the whole line against the pattern and return the text consumed by the
capturing group, or `none` when the line does not match. -/
def pingMatch (cs : List Char) : Option (List Char) :=
  matchToks preToks cs (fun r1 =>
    matchToks groupToks r1 (fun r2 =>
      matchToks postToks r2 (fun r3 =>
        match r3 with
        | [] => some (r1.take (r1.length - r2.length))
        | _ => none)))

/-- The numeric value of a digit string, most significant digit first. -/
def digitsToNat (cs : List Char) : Nat :=
  cs.foldl (fun a c => a * 10 + (c.toNat - '0'.toNat)) 0

/-- The largest value a `time.Duration` can hold: 2^63 - 1 nanoseconds. -/
def maxDurationNs : Nat := 9223372036854775807

/-- Modelled from the Go standard library: `time.ParseDuration` restricted
to the strings `processLine` builds, namely a captured `\d+.\d+` group with
`"ms"` appended.  Accepted shapes are `<digits>ms` and
`<digits>.<digits>ms` (either digit run possibly empty but not both),
yielding a nanosecond count; the fractional contribution, which Go computes
as `int64(float64(f) * (unit / scale))`, is modelled as the truncating
division `f * 10^6 / 10^len`, which agrees with the float computation on
every value this program can meet.  Overflow is an error in Go, modelled as
`none`: `leadingInt` rejects digit strings beyond int64 range, the per-unit
check rejects integer parts above `(2^63 - 1) / 10^6 = 9223372036854`
milliseconds, and the fraction addition is rejected when it wraps past
2^63 - 1 nanoseconds (the wrap test uses the modelled truncated fraction).
One `9223372036854` check covers the first two, since every string
`leadingInt` rejects also exceeds it.  Inputs whose wildcard character is a
unit letter rather than a dot (such as `"23h4ms"`, which full
`ParseDuration` would read as two components) are outside the model and
return `none`. -/
def parseDurationGo (cs : List Char) : Option Int :=
  let ip := cs.takeWhile Char.isDigit
  let r1 := cs.dropWhile Char.isDigit
  match r1 with
  | [] => none
  | c :: r =>
    if c = '.' then
      let fp := r.takeWhile Char.isDigit
      let r2 := r.dropWhile Char.isDigit
      if ip.isEmpty && fp.isEmpty then none
      else if r2 = ['m', 's'] then
        if 9223372036854 < digitsToNat ip then none
        else if maxDurationNs <
            digitsToNat ip * 1000000 + digitsToNat fp * 1000000 / 10 ^ fp.length then none
        else
          some ((digitsToNat ip * 1000000 + digitsToNat fp * 1000000 / 10 ^ fp.length : Nat) : Int)
      else none
    else if ip.isEmpty then none
    else if r1 = ['m', 's'] then
      if 9223372036854 < digitsToNat ip then none
      else some ((digitsToNat ip * 1000000 : Nat) : Int)
    else none

/-- `processLine`, src/pkg/ping/ping.go lines 27-34: run the regexp over
the line; on a match, append `"ms"` to the captured group and parse it as a
duration (a nanosecond count); any failure is an error, embedded as
`none`. -/
def processLine (line : List Char) : Option Int :=
  match pingMatch line with
  | none => none
  | some grp => parseDurationGo (grp ++ ['m', 's'])

/-- Every character of the string is an ASCII digit (what `\d` matches). -/
def allDigits (cs : List Char) : Prop := ∀ c ∈ cs, c.isDigit = true

instance (cs : List Char) : Decidable (allDigits cs) :=
  inferInstanceAs (Decidable (∀ c ∈ cs, c.isDigit = true))

/-- Whether the first character, if any, is a digit. -/
def headIsDigit : List Char → Bool
  | [] => false
  | c :: _ => c.isDigit

/-- A canonical data line assembled from its variable fields: byte count,
the four octets of the IPv4 address, sequence number, time-to-live, and the
integer and fractional digits of the reported time. -/
def mkLine (b i1 i2 i3 i4 sq tt f1 f2 : List Char) : List Char :=
  b ++ (" bytes from ".toList ++ (i1 ++ ('.' :: (i2 ++ ('.' :: (i3 ++ ('.' :: (i4 ++
    (": icmp_seq=".toList ++ (sq ++ (" ttl=".toList ++ (tt ++ (" time=".toList ++
      (f1 ++ ('.' :: (f2 ++ " ms".toList))))))))))))))))

/-- An operation the producer code can perform on the outcome channel
`errs` of src/pkg/ping/ping.go: send a value (`none` models the `nil`
error sent on cancellation) or close the channel. -/
inductive ErrsOp where
  | send (outcome : Option String)
  | close
  deriving DecidableEq

/-- Go channel discipline: sending on or closing an already-closed channel
panics, so an operation sequence is valid only when nothing follows a
close. -/
def validErrsOps : List ErrsOp → Bool
  | [] => true
  | ErrsOp.close :: rest => rest.isEmpty
  | ErrsOp.send _ :: rest => validErrsOps rest

/-- How many outcomes a receiver can obtain from the channel before it is
closed: the sends preceding the first close. -/
def deliveredBeforeClose : List ErrsOp → Nat
  | [] => 0
  | ErrsOp.close :: _ => 0
  | ErrsOp.send _ :: rest => 1 + deliveredBeforeClose rest

/-- The operations `Pinger.Run` performs on `errs` in the run where the
subprocess starts and later exits cleanly (`cmd.Wait()` returns nil) and
the context is then cancelled, traced from src/pkg/ping/ping.go: the waiter
goroutine skips `finished <- err` because the error is nil and its
`defer close(errs)` (line 82) fires; the outer select then takes the
`ctx.Done()` branch and executes `errs <- nil` (line 93); finally the outer
goroutine's own `defer close(errs)` (line 42) fires. -/
def errsOpsCleanExit : List ErrsOp :=
  [ErrsOp.close, ErrsOp.send none, ErrsOp.close]

/-- A subprocess-lifecycle action of the producer. -/
inductive ProcAction where
  | startProc
  | waitProc
  | killProc
  | sendOutcome (o : Option String)
  deriving DecidableEq

/-- Every subprocess-control action that appears anywhere in `Pinger.Run`,
src/pkg/ping/ping.go lines 36-100, in source order: `cmd.Start()` (line
52), `cmd.Wait()` (line 84), and the `errs <- nil` of the cancellation
branch (line 93).  The command is built with `exec.Command`, not
`exec.CommandContext`, and no `cmd.Process.Kill` call exists. -/
def runProcActions : List ProcAction :=
  [ProcAction.startProc, ProcAction.waitProc, ProcAction.sendOutcome none]

/-- The actions of the cancellation branch alone, src/pkg/ping/ping.go
lines 92-93. -/
def cancelBranchActions : List ProcAction := [ProcAction.sendOutcome none]

theorem window_update_min_max_total_count (l : List Int) :
    ∀ (w : Window), 0 < w.Min → (∀ x ∈ l, 0 < x) →
      (l.foldl Window.update w).Min = l.foldl min w.Min ∧
      (l.foldl Window.update w).Max = l.foldl max w.Max ∧
      (l.foldl Window.update w).Total = w.Total + l.sum ∧
      (l.foldl Window.update w).Count = w.Count + l.length := by
  induction l with
  | nil => intro w _ _; simp
  | cons d rest ih =>
    intro w hw hpos
    have hd : 0 < d := hpos d (List.mem_cons_self d rest)
    have hmin : (w.update d).Min = min w.Min d := by
      simp only [Window.update]
      rcases lt_or_le d w.Min with h | h
      · rw [if_pos (Or.inr h), min_eq_right (le_of_lt h)]
      · rw [if_neg, min_eq_left h]
        push_neg
        exact ⟨ne_of_gt hw, h⟩
    have hmax : (w.update d).Max = max w.Max d := by
      simp only [Window.update]
      rcases lt_or_le w.Max d with h | h
      · rw [if_pos h, max_eq_right (le_of_lt h)]
      · rw [if_neg (not_lt.mpr h), max_eq_left h]
    have hw' : 0 < (w.update d).Min := by
      rw [hmin]; exact lt_min hw hd
    have hpos' : ∀ x ∈ rest, 0 < x := fun x hx => hpos x (List.mem_cons_of_mem d hx)
    obtain ⟨h1, h2, h3, h4⟩ := ih (w.update d) hw' hpos'
    refine ⟨?_, ?_, ?_, ?_⟩
    · simpa [hmin] using h1
    · simpa [hmax] using h2
    · simp only [List.foldl_cons, List.sum_cons]
      rw [h3]
      show w.Total + d + rest.sum = w.Total + (d + rest.sum)
      ring
    · simp only [List.foldl_cons, List.length_cons]
      rw [h4]
      show w.Count + 1 + rest.length = w.Count + (rest.length + 1)
      omega

/-- C1 counterexample: the claim quantifies over every value sequence, but
`Window.Update` treats `Min == 0` as the unset sentinel, so after the
sequence `[0, 5]` the recorded minimum is `5`, not `min 0 5 = 0`.  The value
`0` is reachable: every sub-millisecond sample is truncated to `0`. -/
theorem window_min_counterexample :
    ((Window.empty.update 0).update 5).Min ≠ min (0 : Int) 5 := by decide

/-- C1 (amended): for every sequence of positive values `d :: rest`
applied by `Window.Update` to a freshly created or reset window, the state
records the true minimum, maximum and count, and `Average()` is the floor
of the sum divided by the count.  (A reset window equals a fresh one.) -/
theorem window_sequence_stats (d : Int) (rest : List Int) (hd : 0 < d)
    (hrest : ∀ x ∈ rest, 0 < x) :
    (∀ w : Window, w.reset = Window.empty) ∧
    ((d :: rest).foldl Window.update Window.empty).Min = rest.foldl min d ∧
    ((d :: rest).foldl Window.update Window.empty).Max = rest.foldl max d ∧
    ((d :: rest).foldl Window.update Window.empty).Count = (d :: rest).length ∧
    ((d :: rest).foldl Window.update Window.empty).average =
      (d :: rest).sum / ((d :: rest).length : Int) := by
  have hfirst : Window.empty.update d = ⟨d, d, d, 1⟩ := by
    simp [Window.update, Window.empty, hd]
  obtain ⟨h1, h2, h3, h4⟩ :=
    window_update_min_max_total_count rest ⟨d, d, d, 1⟩ hd hrest
  have hsum : 0 ≤ (d :: rest).sum := by
    apply List.sum_nonneg
    intro x hx
    rcases List.mem_cons.mp hx with h | h
    · exact le_of_lt (h ▸ hd)
    · exact le_of_lt (hrest x h)
  refine ⟨fun w => rfl, ?_, ?_, ?_, ?_⟩
  · simpa [hfirst] using h1
  · simpa [hfirst] using h2
  · simp only [List.foldl_cons, hfirst] at h4 ⊢
    simp only [h4, List.length_cons]
    omega
  · have hcount : ((d :: rest).foldl Window.update Window.empty).Count =
        (d :: rest).length := by
      simp only [List.foldl_cons, hfirst] at h4 ⊢
      simp only [h4, List.length_cons]
      omega
    have htot : ((d :: rest).foldl Window.update Window.empty).Total =
        (d :: rest).sum := by
      simp only [List.foldl_cons, hfirst] at h3 ⊢
      simp only [h3, List.sum_cons]
    rw [Window.average, hcount, htot, if_neg (by simp)]
    exact Int.tdiv_eq_ediv hsum (by positivity)

/-- C1 witness at the concrete sequence `[2, 1, 3]`. -/
theorem window_sequence_stats_witness :
    (0 : Int) < 2 ∧ (∀ x ∈ ([1, 3] : List Int), 0 < x) ∧
    ((∀ w : Window, w.reset = Window.empty) ∧
      (([2, 1, 3] : List Int).foldl Window.update Window.empty).Min =
        ([1, 3] : List Int).foldl min 2 ∧
      (([2, 1, 3] : List Int).foldl Window.update Window.empty).Max =
        ([1, 3] : List Int).foldl max 2 ∧
      (([2, 1, 3] : List Int).foldl Window.update Window.empty).Count =
        ([2, 1, 3] : List Int).length ∧
      (([2, 1, 3] : List Int).foldl Window.update Window.empty).average =
        ([2, 1, 3] : List Int).sum / (([2, 1, 3] : List Int).length : Int)) :=
  ⟨by decide, by decide, window_sequence_stats 2 [1, 3] (by decide) (by decide)⟩

/-- C6: every window state reachable from the empty window through any
sequence of `Update` and `Reset` calls has all fields zero when the count
is zero, a minimum bounded by the maximum when the count is positive, and a
total equal to the sum of the update values applied since the last reset. -/
theorem window_reachable_invariant (ops : List WOp) :
    ((applyOps Window.empty ops).Count = 0 →
      (applyOps Window.empty ops).Min = 0 ∧
      (applyOps Window.empty ops).Max = 0 ∧
      (applyOps Window.empty ops).Total = 0) ∧
    (0 < (applyOps Window.empty ops).Count →
      (applyOps Window.empty ops).Min ≤ (applyOps Window.empty ops).Max) ∧
    (applyOps Window.empty ops).Total = (sinceReset ops).sum := by
  suffices h : ∀ (ops : List WOp) (w : Window) (acc : List Int),
      (w.Count = 0 → w.Min = 0 ∧ w.Max = 0 ∧ w.Total = 0) →
      0 ≤ w.Max →
      (0 < w.Count → w.Min ≤ w.Max) →
      w.Total = acc.sum →
      ((ops.foldl wstep w).Count = 0 →
        (ops.foldl wstep w).Min = 0 ∧ (ops.foldl wstep w).Max = 0 ∧
        (ops.foldl wstep w).Total = 0) ∧
      0 ≤ (ops.foldl wstep w).Max ∧
      (0 < (ops.foldl wstep w).Count →
        (ops.foldl wstep w).Min ≤ (ops.foldl wstep w).Max) ∧
      (ops.foldl wstep w).Total =
        (ops.foldl (fun acc op => match op with
          | WOp.upd d => acc ++ [d]
          | WOp.reset => []) acc).sum by
    obtain ⟨h1, _, h3, h4⟩ :=
      h ops Window.empty [] (by intro; exact ⟨rfl, rfl, rfl⟩) le_rfl
        (by intro hc; simp [Window.empty]) (by simp [Window.empty])
    exact ⟨h1, h3, h4⟩
  intro ops
  induction ops with
  | nil => intro w acc hz hmax hmm htot; exact ⟨hz, hmax, hmm, htot⟩
  | cons op rest ih =>
    intro w acc hz hmax hmm htot
    cases op with
    | upd d =>
      have hmax' : 0 ≤ (w.update d).Max := by
        simp only [Window.update]
        split
        · next h => exact le_of_lt (lt_of_le_of_lt hmax h)
        · exact hmax
      have hstepmax : d ≤ (w.update d).Max := by
        simp only [Window.update]
        split
        · exact le_refl d
        · next h => exact not_lt.mp h
      have hmm' : 0 < (w.update d).Count → (w.update d).Min ≤ (w.update d).Max := by
        intro _
        simp only [Window.update]
        split
        · next h => exact hstepmax
        · next h =>
          push_neg at h
          have hc : 0 < w.Count := by
            by_contra hc
            have : w.Count = 0 := by omega
            exact h.1 (hz this).1
          have hwm : w.Min ≤ w.Max := hmm hc
          have : w.Max ≤ (w.update d).Max := by
            simp only [Window.update]
            split
            · next hgt => exact le_of_lt hgt
            · exact le_refl _
          simp only [Window.update] at this
          exact le_trans hwm this
      have hz' : (w.update d).Count = 0 →
          (w.update d).Min = 0 ∧ (w.update d).Max = 0 ∧ (w.update d).Total = 0 := by
        intro hc
        simp only [Window.update] at hc
        omega
      have htot' : (w.update d).Total = (acc ++ [d]).sum := by
        simp only [Window.update, List.sum_append, List.sum_cons, List.sum_nil, htot]
        ring
      simpa only [List.foldl_cons, wstep] using
        ih (w.update d) (acc ++ [d]) hz' hmax' hmm' htot'
    | reset =>
      simpa only [List.foldl_cons, wstep] using
        ih w.reset [] (by intro; exact ⟨rfl, rfl, rfl⟩) le_rfl
          (by intro hc; simp [Window.reset] at hc) (by simp [Window.reset])

/-- C4: whenever `Stats.Update` runs at an instant `now` whose elapsed time
since `windowStart` exceeds `windowSize`, exactly one rollover happens in
that call: `lastWindow` becomes the current window including the sample
just applied, the current window is reset to empty, `windowStart` becomes
`now`, and the lifetime totals and histogram keep their updated values. -/
theorem stats_update_rollover (s : Stats) (now d : Int)
    (h : now - s.windowStart > s.windowSize) :
    (s.update now d).lastWindow = s.window.update d ∧
    (s.update now d).window = Window.empty ∧
    (s.update now d).windowStart = now ∧
    (s.update now d).totals = s.totals.update d ∧
    (s.update now d).histogram = s.histogram.update d := by
  simp only [Stats.update]
  rw [if_pos h]
  exact ⟨rfl, rfl, rfl, rfl, rfl⟩

/-- C4 witness: a window open since time 0 with a zero-length span rolled
over by an update at time 6. -/
theorem stats_update_rollover_witness :
    ((6 : Int) - (initStats 0 0).windowStart > (initStats 0 0).windowSize) ∧
    (((initStats 0 0).update 6 7).lastWindow = (initStats 0 0).window.update 7 ∧
      ((initStats 0 0).update 6 7).window = Window.empty ∧
      ((initStats 0 0).update 6 7).windowStart = 6 ∧
      ((initStats 0 0).update 6 7).totals = (initStats 0 0).totals.update 7 ∧
      ((initStats 0 0).update 6 7).histogram = (initStats 0 0).histogram.update 7) :=
  ⟨by decide, stats_update_rollover (initStats 0 0) 6 7 (by decide)⟩

/-- C7: if no sample arrives, the statistics state is unchanged no matter
how much wall-clock time passes between the handled events: rollover can
only fire inside `Stats.Update`, which only a sample message reaches, and
the rendering view is a pure function of the state. -/
theorem no_traffic_no_rollover (st : Stats) (evs : List (Int × Msg))
    (h : ∀ ev ∈ evs, ev.2.isSample = false) :
    modelRun st evs = st ∧ (modelRun st evs).stringRepr = st.stringRepr := by
  suffices hrun : modelRun st evs = st by rw [hrun]; exact ⟨rfl, rfl⟩
  induction evs generalizing st with
  | nil => rfl
  | cons ev rest ih =>
    have hstep : modelStep st ev = st := by
      obtain ⟨now, m⟩ := ev
      have := h (now, m) (List.mem_cons_self _ _)
      cases m with
      | sample ns => simp [Msg.isSample] at this
      | key k => rfl
      | initMsg => rfl
      | errMsg => rfl
    have hrest : ∀ ev ∈ rest, ev.2.isSample = false :=
      fun ev hev => h ev (List.mem_cons_of_mem _ hev)
    calc modelRun st (ev :: rest) = modelRun (modelStep st ev) rest := rfl
      _ = modelRun st rest := by rw [hstep]
      _ = st := ih st hrest

/-- C7 witness: a key press, the init message and an error handled at
widely separated instants leave the engine state untouched. -/
theorem no_traffic_no_rollover_witness :
    (∀ ev ∈ ([(0, Msg.key "q"), (7000000000, Msg.initMsg),
        (9000000000, Msg.errMsg)] : List (Int × Msg)), ev.2.isSample = false) ∧
    (modelRun (initStats 5 0) [(0, Msg.key "q"), (7000000000, Msg.initMsg),
        (9000000000, Msg.errMsg)] = initStats 5 0 ∧
      (modelRun (initStats 5 0) [(0, Msg.key "q"), (7000000000, Msg.initMsg),
        (9000000000, Msg.errMsg)]).stringRepr = (initStats 5 0).stringRepr) :=
  ⟨by decide, no_traffic_no_rollover (initStats 5 0) _ (by decide)⟩

/-- C10: a sample of less than one millisecond is truncated toward zero by
`Duration.Milliseconds`, so it reaches the windows and the histogram as the
value 0 while still incrementing the lifetime count and histogram total. -/
theorem submillisecond_sample_truncated (st : Stats) (now ns : Int)
    (h0 : 0 ≤ ns) (h1 : ns < 1000000) :
    durMilliseconds ns = 0 ∧
    modelStep st (now, Msg.sample ns) = st.update now 0 ∧
    (modelStep st (now, Msg.sample ns)).totals.Count = st.totals.Count + 1 ∧
    (modelStep st (now, Msg.sample ns)).histogram.total = st.histogram.total + 1 := by
  have hms : durMilliseconds ns = 0 := by
    rw [durMilliseconds, Int.tdiv_eq_ediv h0 (by decide)]
    exact Int.ediv_eq_zero_of_lt h0 h1
  have hstep : modelStep st (now, Msg.sample ns) = st.update now 0 := by
    simp [modelStep, hms]
  refine ⟨hms, hstep, ?_, ?_⟩
  · rw [hstep]
    simp only [Stats.update]
    split
    · rfl
    · rfl
  · rw [hstep]
    simp only [Stats.update]
    split
    · rfl
    · rfl

/-- C10 witness at a 5-nanosecond sample. -/
theorem submillisecond_sample_truncated_witness :
    ((0 : Int) ≤ 5 ∧ (5 : Int) < 1000000) ∧
    (durMilliseconds 5 = 0 ∧
      modelStep (initStats 5 0) (0, Msg.sample 5) = (initStats 5 0).update 0 0 ∧
      (modelStep (initStats 5 0) (0, Msg.sample 5)).totals.Count =
        (initStats 5 0).totals.Count + 1 ∧
      (modelStep (initStats 5 0) (0, Msg.sample 5)).histogram.total =
        (initStats 5 0).histogram.total + 1) :=
  ⟨⟨by decide, by decide⟩,
    submillisecond_sample_truncated (initStats 5 0) 0 5 (by decide) (by decide)⟩

theorem length_updateBuckets (ts : List Int) (bs : List Nat) (d : Int) :
    (updateBuckets ts bs d).length = bs.length := by
  induction ts generalizing bs with
  | nil => rfl
  | cons t ts ih =>
    cases bs with
    | nil => rfl
    | cons b bs =>
      by_cases h : d ≤ t
      · simp [updateBuckets, h]
      · simp [updateBuckets, h, ih bs]

theorem sum_updateBuckets (ts : List Int) (bs : List Nat) (d : Int)
    (hlen : bs.length = ts.length) :
    (updateBuckets ts bs d).sum =
      bs.sum + (if ts.any (fun t => decide (d ≤ t)) then 1 else 0) := by
  induction ts generalizing bs with
  | nil => simp [updateBuckets]
  | cons t ts ih =>
    cases bs with
    | nil => simp at hlen
    | cons b bs =>
      by_cases h : d ≤ t
      · simp [updateBuckets, h]
        omega
      · have hlen' : bs.length = ts.length := by simpa using hlen
        simp [updateBuckets, h, ih bs hlen']
        split
        · omega
        · omega

theorem histogram_applyAll_spec (l : List Int) :
    ∀ (h : Histogram), h.buckets.length = h.thresholds.length →
      (h.applyAll l).thresholds = h.thresholds ∧
      (h.applyAll l).buckets.length = h.buckets.length ∧
      (h.applyAll l).total = h.total + l.length ∧
      (h.applyAll l).buckets.sum = h.buckets.sum +
        l.countP (fun d => h.thresholds.any (fun t => decide (d ≤ t))) := by
  induction l with
  | nil => intro h _; simp [Histogram.applyAll]
  | cons d rest ih =>
    intro h hlen
    have hstep : (h.update d).thresholds = h.thresholds := rfl
    have hlen' : (h.update d).buckets.length = (h.update d).thresholds.length := by
      show (updateBuckets h.thresholds h.buckets d).length = h.thresholds.length
      rw [length_updateBuckets, hlen]
    obtain ⟨h1, h2, h3, h4⟩ := ih (h.update d) hlen'
    have happ : h.applyAll (d :: rest) = (h.update d).applyAll rest := rfl
    refine ⟨?_, ?_, ?_, ?_⟩
    · rw [happ, h1, hstep]
    · rw [happ, h2]
      show (updateBuckets h.thresholds h.buckets d).length = h.buckets.length
      exact length_updateBuckets _ _ _
    · rw [happ, h3]
      show h.total + 1 + rest.length = h.total + (d :: rest).length
      simp only [List.length_cons]
      omega
    · rw [happ, h4, hstep]
      show (updateBuckets h.thresholds h.buckets d).sum + _ = _
      rw [sum_updateBuckets h.thresholds h.buckets d (by rw [hlen])]
      rw [List.countP_cons]
      omega

theorem updateBuckets_no_match (ts : List Int) :
    ∀ (bs : List Nat) (d : Int), (∀ t ∈ ts, ¬ d ≤ t) → updateBuckets ts bs d = bs := by
  induction ts with
  | nil => intro bs d _; cases bs <;> rfl
  | cons t ts ih =>
    intro bs d hnone
    cases bs with
    | nil => rfl
    | cons b bs =>
      have ht : ¬ d ≤ t := hnone t (List.mem_cons_self _ _)
      have hrest : ∀ u ∈ ts, ¬ d ≤ u := fun u hu => hnone u (List.mem_cons_of_mem _ hu)
      simp [updateBuckets, ht, ih bs d hrest]

theorem updateBuckets_first_match (ts : List Int) :
    ∀ (bs : List Nat) (d : Int) (i : Nat), i < ts.length → d ≤ ts.getD i 0 →
      (∀ j, j < i → ¬ d ≤ ts.getD j 0) →
      updateBuckets ts bs d = bs.set i (bs.getD i 0 + 1) := by
  induction ts with
  | nil => intro bs d i hi _ _; simp at hi
  | cons t ts ih =>
    intro bs d i hi hle hfirst
    cases i with
    | zero =>
      cases bs with
      | nil => rfl
      | cons b bs =>
        simp only [List.getD_cons_zero] at hle ⊢
        simp [updateBuckets, hle]
    | succ i =>
      have ht : ¬ d ≤ t := by simpa using hfirst 0 (Nat.succ_pos i)
      cases bs with
      | nil => rfl
      | cons b bs =>
        have hfirst' : ∀ j, j < i → ¬ d ≤ ts.getD j 0 := fun j hj => by
          simpa using hfirst (j + 1) (by omega)
        have hle' : d ≤ ts.getD i 0 := by simpa using hle
        have hi' : i < ts.length := by simpa using hi
        simp only [updateBuckets, if_neg ht, List.getD_cons_succ, List.set_cons_succ]
        rw [ih bs d i hi' hle' hfirst']

theorem mem_le_getLast (ts : List Int) (hs : ts.Sorted (· ≤ ·)) :
    ∀ x ∈ ts, ∀ (hne : ts ≠ []), x ≤ ts.getLast hne := by
  induction ts with
  | nil => intro x hx; simp at hx
  | cons t ts ih =>
    intro x hx hne
    rcases List.sorted_cons.mp hs with ⟨hall, hs'⟩
    cases ts with
    | nil =>
      rcases List.mem_cons.mp hx with h | h
      · simp [List.getLast, h]
      · simp at h
    | cons u us =>
      rw [List.getLast_cons (by simp)]
      rcases List.mem_cons.mp hx with h | h
      · subst h
        exact le_trans (hall _ (List.getLast_mem _)) (le_refl _)
      · exact ih hs' x h (by simp)

/-- C3: over any histogram with a nonempty ascending threshold list, each
update increments `total` unconditionally; after any sequence of updates
the bucket counts sum to at most `total`, with equality exactly when every
sample was at most the largest threshold; and a single update increments
exactly the first bucket whose threshold the sample is `<=` (a sample equal
to a threshold falls into that bucket) and no bucket when the sample
exceeds every threshold. -/
theorem histogram_update_invariant (ts : List Int) (hne : ts ≠ [])
    (hs : ts.Sorted (· ≤ ·)) (l : List Int) :
    (∀ (hh : Histogram) (d : Int), (hh.update d).total = hh.total + 1) ∧
    ((NewHistogram ts).applyAll l).total = l.length ∧
    ((NewHistogram ts).applyAll l).buckets.sum ≤ ((NewHistogram ts).applyAll l).total ∧
    (((NewHistogram ts).applyAll l).buckets.sum = ((NewHistogram ts).applyAll l).total ↔
      ∀ d ∈ l, d ≤ ts.getLast hne) ∧
    (∀ (d : Int) (bs : List Nat),
      ((∀ t ∈ ts, ¬ d ≤ t) → updateBuckets ts bs d = bs) ∧
      (∀ i, i < ts.length → d ≤ ts.getD i 0 →
        (∀ j, j < i → ¬ d ≤ ts.getD j 0) →
        updateBuckets ts bs d = bs.set i (bs.getD i 0 + 1))) := by
  have hlen0 : (NewHistogram ts).buckets.length = (NewHistogram ts).thresholds.length := by
    simp [NewHistogram]
  obtain ⟨h1, h2, h3, h4⟩ := histogram_applyAll_spec l (NewHistogram ts) hlen0
  have hsum0 : (NewHistogram ts).buckets.sum = 0 := by
    apply List.sum_eq_zero
    intro x hx
    rcases List.mem_map.mp hx with ⟨t, _, ht⟩
    exact ht.symm
  have htot0 : (NewHistogram ts).total = 0 := rfl
  have hth0 : (NewHistogram ts).thresholds = ts := rfl
  rw [hsum0, hth0] at h4
  rw [htot0] at h3
  have hiff : ∀ d : Int, (ts.any (fun t => decide (d ≤ t)) = true ↔ d ≤ ts.getLast hne) := by
    intro d
    constructor
    · intro h
      rcases List.any_eq_true.mp h with ⟨t, htmem, htle⟩
      exact le_trans (of_decide_eq_true htle) (mem_le_getLast ts hs t htmem hne)
    · intro h
      exact List.any_eq_true.mpr ⟨ts.getLast hne, List.getLast_mem hne, decide_eq_true h⟩
  refine ⟨fun hh d => rfl, by rw [h3]; omega, ?_, ?_, ?_⟩
  · rw [h3, h4]
    have h5 : List.countP (fun d => ts.any fun t => decide (d ≤ t)) l ≤ l.length :=
      List.countP_le_length _
    omega
  · rw [h3, h4]
    simp only [Nat.zero_add]
    rw [List.countP_eq_length]
    constructor
    · intro h d hd
      exact (hiff d).mp (h d hd)
    · intro h d hd
      exact (hiff d).mpr (h d hd)
  · intro d bs
    exact ⟨fun hnone => updateBuckets_no_match ts bs d hnone,
      fun i hi hle hfirst => updateBuckets_first_match ts bs d i hi hle hfirst⟩

/-- C3 witness over thresholds `[1, 2]` and samples `[0, 3]`. -/
theorem histogram_update_invariant_witness :
    (([1, 2] : List Int) ≠ [] ∧ ([1, 2] : List Int).Sorted (· ≤ ·)) ∧
    ((∀ (hh : Histogram) (d : Int), (hh.update d).total = hh.total + 1) ∧
      ((NewHistogram [1, 2]).applyAll [0, 3]).total = ([0, 3] : List Int).length ∧
      ((NewHistogram [1, 2]).applyAll [0, 3]).buckets.sum ≤
        ((NewHistogram [1, 2]).applyAll [0, 3]).total ∧
      (((NewHistogram [1, 2]).applyAll [0, 3]).buckets.sum =
          ((NewHistogram [1, 2]).applyAll [0, 3]).total ↔
        ∀ d ∈ ([0, 3] : List Int), d ≤ ([1, 2] : List Int).getLast (by decide)) ∧
      (∀ (d : Int) (bs : List Nat),
        ((∀ t ∈ ([1, 2] : List Int), ¬ d ≤ t) → updateBuckets [1, 2] bs d = bs) ∧
        (∀ i, i < ([1, 2] : List Int).length → d ≤ ([1, 2] : List Int).getD i 0 →
          (∀ j, j < i → ¬ d ≤ ([1, 2] : List Int).getD j 0) →
          updateBuckets [1, 2] bs d = bs.set i (bs.getD i 0 + 1)))) :=
  ⟨⟨by decide, by decide⟩,
    histogram_update_invariant [1, 2] (by decide) (by decide) [0, 3]⟩

theorem isPrefixOf_append_self : ∀ (s rest : List Char), s.isPrefixOf (s ++ rest) = true
  | [], _ => by simp [List.isPrefixOf]
  | c :: s, rest => by
    show (c == c && List.isPrefixOf s (s ++ rest)) = true
    rw [isPrefixOf_append_self s rest]
    simp

theorem takeWhile_digits_append : ∀ (D rest : List Char), allDigits D →
    headIsDigit rest = false → (D ++ rest).takeWhile Char.isDigit = D
  | [], rest, _, hrest => by
    cases rest with
    | nil => rfl
    | cons c r =>
      have h : c.isDigit = false := hrest
      show (c :: r).takeWhile Char.isDigit = []
      rw [List.takeWhile_cons, h]
      rfl
  | d :: D, rest, hD, hrest => by
    have hd : d.isDigit = true := hD d (List.mem_cons_self _ _)
    have hD' : allDigits D := fun c hc => hD c (List.mem_cons_of_mem _ hc)
    show ((d :: (D ++ rest)).takeWhile Char.isDigit) = d :: D
    rw [List.takeWhile_cons, hd]
    simp [takeWhile_digits_append D rest hD' hrest]

theorem dropWhile_digits_append : ∀ (D rest : List Char), allDigits D →
    headIsDigit rest = false → (D ++ rest).dropWhile Char.isDigit = rest
  | [], rest, _, hrest => by
    cases rest with
    | nil => rfl
    | cons c r =>
      have h : c.isDigit = false := hrest
      show (c :: r).dropWhile Char.isDigit = c :: r
      rw [List.dropWhile_cons, h]
      rfl
  | d :: D, rest, hD, hrest => by
    have hd : d.isDigit = true := hD d (List.mem_cons_self _ _)
    have hD' : allDigits D := fun c hc => hD c (List.mem_cons_of_mem _ hc)
    show ((d :: (D ++ rest)).dropWhile Char.isDigit) = rest
    rw [List.dropWhile_cons, hd]
    simp [dropWhile_digits_append D rest hD' hrest]

theorem matchToks_lit {α : Type} (s : List Char) {rest : List Char} {ts : List RTok}
    {k : List Char → Option α} :
    matchToks (RTok.lit s :: ts) (s ++ rest) k = matchToks ts rest k := by
  show (if s.isPrefixOf (s ++ rest) then matchToks ts ((s ++ rest).drop s.length) k
      else none) = matchToks ts rest k
  rw [isPrefixOf_append_self, if_pos rfl, List.drop_left]

theorem matchToks_lit_end {α : Type} (s : List Char) {k : List Char → Option α} :
    matchToks [RTok.lit s] s k = k [] := by
  have h : matchToks [RTok.lit s] (s ++ []) k = matchToks [] [] k := matchToks_lit s
  rw [List.append_nil] at h
  exact h

theorem matchToks_anyc {α : Type} (c : Char) (hc : ¬ c = '\n') {rest : List Char}
    {ts : List RTok} {k : List Char → Option α} :
    matchToks (RTok.anyc :: ts) (c :: rest) k = matchToks ts rest k := by
  show (if c = '\n' then none else matchToks ts rest k) = matchToks ts rest k
  rw [if_neg hc]

theorem matchToks_digits {α : Type} (D : List Char) {rest : List Char} {ts : List RTok}
    {k : List Char → Option α} {v : α} (hD : D ≠ []) (hdig : allDigits D)
    (hrest : headIsDigit rest = false) (hk : matchToks ts rest k = some v) :
    matchToks (RTok.digits :: ts) (D ++ rest) k = some v := by
  have htw : (D ++ rest).takeWhile Char.isDigit = D :=
    takeWhile_digits_append D rest hdig hrest
  show tryTake (D ++ rest) (fun r => matchToks ts r k)
      (((D ++ rest).takeWhile Char.isDigit).length) = some v
  rw [htw]
  cases D with
  | nil => exact absurd rfl hD
  | cons d D' =>
    have hdrop : ((d :: D') ++ rest).drop (D'.length + 1) = rest :=
      List.drop_left (d :: D') rest
    show tryTake ((d :: D') ++ rest) (fun r => matchToks ts r k) (D'.length + 1) = some v
    simp only [tryTake, hdrop, hk]

/-- C8 counterexample: the claim promises a sample exactly equal to the
trailing float, but the sample type counts whole nanoseconds and Go's
`ParseDuration` truncates finer fractions, so the matching line carrying
`time=1.1234567 ms` (exactly 11234567 tenths of a nanosecond) produces the
sample 1123456ns, which is 11234560 tenths: not exact to the precision
given. -/
theorem processLine_precision_counterexample :
    processLine "64 bytes from 1.2.3.4: icmp_seq=1 ttl=64 time=1.1234567 ms".toList =
      some 1123456 ∧ (1123456 : Int) * 10 ≠ 11234567 :=
  ⟨by decide, by decide⟩

/-- C8 (amended): every line of the five-field data-line shape whose
fractional time part has at most six digits (nanosecond precision) and
whose value fits a `time.Duration` — at most `maxDurationNs` nanoseconds —
yields a latency sample exactly equal to the trailing float in
milliseconds, the value `f1.f2` scaled to nanoseconds, with every other
field ignored; finer fractions are truncated to whole nanoseconds, and a
line whose integer part exceeds 9223372036854 milliseconds overflows
`ParseDuration` and is dropped with no sample. -/
theorem processLine_data_line (b i1 i2 i3 i4 sq tt f1 f2 : List Char)
    (hb : b ≠ [] ∧ allDigits b) (hi1 : i1 ≠ [] ∧ allDigits i1)
    (hi2 : i2 ≠ [] ∧ allDigits i2) (hi3 : i3 ≠ [] ∧ allDigits i3)
    (hi4 : i4 ≠ [] ∧ allDigits i4) (hsq : sq ≠ [] ∧ allDigits sq)
    (htt : tt ≠ [] ∧ allDigits tt) (hf1 : f1 ≠ [] ∧ allDigits f1)
    (hf2 : f2 ≠ [] ∧ allDigits f2) :
    (f2.length ≤ 6 →
      digitsToNat f1 * 1000000 + digitsToNat f2 * 10 ^ (6 - f2.length) ≤ maxDurationNs →
      processLine (mkLine b i1 i2 i3 i4 sq tt f1 f2) =
        some ((digitsToNat f1 * 1000000 + digitsToNat f2 * 10 ^ (6 - f2.length) : Nat) : Int)) ∧
    (9223372036854 < digitsToNat f1 →
      processLine (mkLine b i1 i2 i3 i4 sq tt f1 f2) = none) := by
  have hr1 : f1 ++ ('.' :: (f2 ++ " ms".toList)) = (f1 ++ '.' :: f2) ++ " ms".toList := by
    simp
  have hcap : (f1 ++ ('.' :: (f2 ++ " ms".toList))).take
      ((f1 ++ ('.' :: (f2 ++ " ms".toList))).length - (" ms".toList).length) =
        f1 ++ '.' :: f2 := by
    rw [hr1]
    apply List.take_left'
    simp [List.length_append]
    omega
  have hgroup : matchToks groupToks (f1 ++ ('.' :: (f2 ++ " ms".toList)))
      (fun r2 => matchToks postToks r2 (fun r3 =>
        match r3 with
        | [] => some ((f1 ++ ('.' :: (f2 ++ " ms".toList))).take
            ((f1 ++ ('.' :: (f2 ++ " ms".toList))).length - r2.length))
        | _ => none)) = some (f1 ++ '.' :: f2) := by
    simp only [groupToks]
    refine matchToks_digits f1 hf1.1 hf1.2 rfl ?_
    rw [matchToks_anyc '.' (by decide)]
    refine matchToks_digits f2 hf2.1 hf2.2 rfl ?_
    show matchToks postToks (" ms".toList) _ = _
    simp only [postToks]
    rw [matchToks_lit_end]
    exact congrArg some hcap
  have hmatch : pingMatch (mkLine b i1 i2 i3 i4 sq tt f1 f2) = some (f1 ++ '.' :: f2) := by
    simp only [pingMatch, preToks, mkLine]
    refine matchToks_digits b hb.1 hb.2 rfl ?_
    rw [matchToks_lit]
    refine matchToks_digits i1 hi1.1 hi1.2 rfl ?_
    rw [matchToks_anyc '.' (by decide)]
    refine matchToks_digits i2 hi2.1 hi2.2 rfl ?_
    rw [matchToks_anyc '.' (by decide)]
    refine matchToks_digits i3 hi3.1 hi3.2 rfl ?_
    rw [matchToks_anyc '.' (by decide)]
    refine matchToks_digits i4 hi4.1 hi4.2 rfl ?_
    rw [matchToks_lit]
    refine matchToks_digits sq hsq.1 hsq.2 rfl ?_
    rw [matchToks_lit]
    refine matchToks_digits tt htt.1 htt.2 rfl ?_
    rw [matchToks_lit]
    exact hgroup
  have hf1e : f1.isEmpty = false := by
    cases f1 with
    | nil => exact absurd rfl hf1.1
    | cons a l => rfl
  have he : (f1 ++ '.' :: f2) ++ ['m', 's'] = f1 ++ ('.' :: (f2 ++ ['m', 's'])) := by
    simp
  have htw : (f1 ++ ('.' :: (f2 ++ ['m', 's']))).takeWhile Char.isDigit = f1 :=
    takeWhile_digits_append f1 _ hf1.2 rfl
  have hdw : (f1 ++ ('.' :: (f2 ++ ['m', 's']))).dropWhile Char.isDigit =
      '.' :: (f2 ++ ['m', 's']) :=
    dropWhile_digits_append f1 _ hf1.2 rfl
  have htw2 : (f2 ++ ['m', 's']).takeWhile Char.isDigit = f2 :=
    takeWhile_digits_append f2 _ hf2.2 rfl
  have hdw2 : (f2 ++ ['m', 's']).dropWhile Char.isDigit = ['m', 's'] :=
    dropWhile_digits_append f2 _ hf2.2 rfl
  constructor
  · intro hlen hrange
    have hpow : digitsToNat f2 * 1000000 / 10 ^ f2.length =
        digitsToNat f2 * 10 ^ (6 - f2.length) := by
      have h6 : (1000000 : Nat) = 10 ^ f2.length * 10 ^ (6 - f2.length) := by
        rw [← pow_add]
        have he6 : f2.length + (6 - f2.length) = 6 := by omega
        rw [he6]
        norm_num
      rw [h6, show digitsToNat f2 * (10 ^ f2.length * 10 ^ (6 - f2.length)) =
        10 ^ f2.length * (digitsToNat f2 * 10 ^ (6 - f2.length)) from by ring]
      exact Nat.mul_div_cancel_left _ (by positivity)
    have hrange' : digitsToNat f1 * 1000000 + digitsToNat f2 * 10 ^ (6 - f2.length) ≤
        9223372036854775807 := by
      simpa [maxDurationNs] using hrange
    have hf1cap : ¬ 9223372036854 < digitsToNat f1 := by omega
    have hnscap : ¬ maxDurationNs <
        digitsToNat f1 * 1000000 + digitsToNat f2 * 10 ^ (6 - f2.length) := by
      simp only [maxDurationNs]
      omega
    have hparse : parseDurationGo ((f1 ++ '.' :: f2) ++ ['m', 's']) =
        some ((digitsToNat f1 * 1000000 + digitsToNat f2 * 10 ^ (6 - f2.length) : Nat) : Int) := by
      rw [he]
      simp only [parseDurationGo, htw, hdw, htw2, hdw2, hf1e, hpow]
      simp [hf1cap, hnscap]
    simp only [processLine, hmatch]
    exact hparse
  · intro hover
    have hparse : parseDurationGo ((f1 ++ '.' :: f2) ++ ['m', 's']) = none := by
      rw [he]
      simp only [parseDurationGo, htw, hdw, htw2, hdw2, hf1e]
      simp [hover]
    simp only [processLine, hmatch]
    exact hparse

/-- C8 witness at the concrete line
`64 bytes from 1.2.3.4: icmp_seq=1 ttl=64 time=23.4 ms`, which yields
23.4ms, that is 23400000ns. -/
theorem processLine_data_line_witness :
    ("64".toList ≠ [] ∧ allDigits "64".toList) ∧
    ("1".toList ≠ [] ∧ allDigits "1".toList) ∧
    ("2".toList ≠ [] ∧ allDigits "2".toList) ∧
    ("3".toList ≠ [] ∧ allDigits "3".toList) ∧
    ("4".toList ≠ [] ∧ allDigits "4".toList) ∧
    ("23".toList ≠ [] ∧ allDigits "23".toList) ∧
    ("4".toList.length ≤ 6) ∧
    (digitsToNat "23".toList * 1000000 +
      digitsToNat "4".toList * 10 ^ (6 - "4".toList.length) ≤ maxDurationNs) ∧
    processLine (mkLine "64".toList "1".toList "2".toList "3".toList "4".toList
        "1".toList "64".toList "23".toList "4".toList) =
      some ((digitsToNat "23".toList * 1000000 +
        digitsToNat "4".toList * 10 ^ (6 - "4".toList.length) : Nat) : Int) :=
  ⟨by decide, by decide, by decide, by decide, by decide, by decide, by decide, by decide,
    (processLine_data_line "64".toList "1".toList "2".toList "3".toList "4".toList
      "1".toList "64".toList "23".toList "4".toList
      (by decide) (by decide) (by decide) (by decide) (by decide) (by decide)
      (by decide) (by decide) (by decide)).1 (by decide) (by decide)⟩

/-- C9: feeding the three data lines carrying `time=1.0 ms`, `time=3.0 ms`
and `time=5.0 ms` through the parser and then `Stats.Update` (default
thresholds, all updates inside the window span so no rollover intervenes)
yields lifetime totals min=1, max=5, avg=3, count=3, and a histogram whose
1ms bucket counted one sample and whose 5ms bucket counted two (3.0 falls
in the 5ms bucket), total 3. -/
theorem pipeline_end_to_end :
    (["64 bytes from 1.2.3.4: icmp_seq=1 ttl=64 time=1.0 ms",
        "64 bytes from 1.2.3.4: icmp_seq=2 ttl=64 time=3.0 ms",
        "64 bytes from 1.2.3.4: icmp_seq=3 ttl=64 time=5.0 ms"].filterMap
      (fun l => processLine l.toList)).foldl
        (fun s ns => s.update 0 (durMilliseconds ns)) (initStats 5 0) =
      { windowSize := 5000000000,
        windowStart := 0,
        window := ⟨1, 5, 9, 3⟩,
        lastWindow := Window.empty,
        totals := ⟨1, 5, 9, 3⟩,
        histogram := ⟨defaultThresholds, [1, 0, 2, 0, 0, 0, 0, 0, 0, 0], 3⟩ } ∧
    ((["64 bytes from 1.2.3.4: icmp_seq=1 ttl=64 time=1.0 ms",
        "64 bytes from 1.2.3.4: icmp_seq=2 ttl=64 time=3.0 ms",
        "64 bytes from 1.2.3.4: icmp_seq=3 ttl=64 time=5.0 ms"].filterMap
      (fun l => processLine l.toList)).foldl
        (fun s ns => s.update 0 (durMilliseconds ns)) (initStats 5 0)).totals.average = 3 :=
  ⟨by decide, by decide⟩

/-- C2 fails on the code: on the clean-exit run the outcome channel is
closed before any outcome is sent, so zero outcomes (not exactly one) are
ever delivered, and the remaining operations violate the channel
discipline (a send on a closed channel, then a second close), which in Go
is a runtime panic. -/
theorem pinger_outcome_claim_fails :
    deliveredBeforeClose errsOpsCleanExit = 0 ∧
    validErrsOps errsOpsCleanExit = false :=
  ⟨by decide, by decide⟩

/-- C5 fails on the code: neither the cancellation branch nor any other
part of `Pinger.Run` ever kills the subprocess, so on cancellation the
producer delivers its outcome while the probe process keeps running. -/
theorem pinger_never_kills :
    ProcAction.killProc ∉ runProcActions ∧
    ProcAction.killProc ∉ cancelBranchActions :=
  ⟨by decide, by decide⟩

end NetTest
